import Mathlib

set_option maxRecDepth 8000

/-!
Shallow embedding of the encryption/decryption dispatch core of the
Crypto_Grapher repository (`src/src/lib/crypto/browser-crypto.ts`,
`src/src/lib/crypto/browser-file-crypto.ts`,
`src/crypto-grapher/src/lib/crypto/encryption-service.ts`).

JavaScript strings are modelled as lists of UTF-16 code units
(`List Nat`, each value `< 65536`); byte buffers as lists of bytes
(`List Nat`, each value `< 256`).  The Web-Crypto AEAD primitive, the
SHA-256 digest and the CryptoJS library are external collaborators of
the repository; they enter the embedding as explicit parameters
(`AEAD`, `CryptoJSLib`).  Thrown `Error`s are modelled by the `Err`
type, one constructor per throw site.
-/

/-- Algorithm identifiers of the dispatch layer (`EncryptionAlgorithm`
in `encryption-service.ts`). -/
inductive EncryptionAlgorithm where
  | AES | DES | TripleDES | Rabbit | RC4 | ChaCha20 | OTP | RSA | ECC | Blowfish
  deriving DecidableEq

/-- Failure values; each constructor corresponds to one
`throw new Error(...)` site of the source (messages abbreviated to tags). -/
inductive Err where
  | emptyText | emptyKey | emptyCiphertext | encodeFailed | decodeFailed
  | invalidCiphertextLength | authFailure | fileTooLarge | malformedEnvelope
  | missingMetadata | emptyResult
  | notImplemented (algo : EncryptionAlgorithm)
  deriving DecidableEq

instance {ε α : Type} [DecidableEq ε] [DecidableEq α] : DecidableEq (Except ε α)
  | .error e, .error f => decidable_of_iff (e = f) (by simp)
  | .error _, .ok _ => .isFalse (fun h => Except.noConfusion h)
  | .ok _, .error _ => .isFalse (fun h => Except.noConfusion h)
  | .ok a, .ok b => decidable_of_iff (a = b) (by simp)

/-- Character of the standard Base64 alphabet at index `i` (used by
`btoa` and by the `FileReader` data-URL encoding). -/
def b64Char (i : Nat) : Nat :=
  if i < 26 then 65 + i
  else if i < 52 then 71 + i
  else if i < 62 then i - 4
  else if i = 62 then 43
  else 47

/-- Index of a character in the Base64 alphabet (used by `atob`). -/
def b64Index (c : Nat) : Option Nat :=
  if 65 ≤ c ∧ c ≤ 90 then some (c - 65)
  else if 97 ≤ c ∧ c ≤ 122 then some (c - 71)
  else if 48 ≤ c ∧ c ≤ 57 then some (c + 4)
  else if c = 43 then some 62
  else if c = 47 then some 63
  else none

/-- Base64 encoding of a byte list, as the code-unit list of the
resulting string (models `btoa` applied to a binary string, i.e.
`arrayBufferToBase64` in `browser-crypto.ts`). -/
def b64Encode : List Nat → List Nat
  | [] => []
  | [b0] => [b64Char (b0 / 4), b64Char (b0 % 4 * 16), 61, 61]
  | [b0, b1] => [b64Char (b0 / 4), b64Char (b0 % 4 * 16 + b1 / 16), b64Char (b1 % 16 * 4), 61]
  | b0 :: b1 :: b2 :: rest =>
    b64Char (b0 / 4) :: b64Char (b0 % 4 * 16 + b1 / 16) ::
    b64Char (b1 % 16 * 4 + b2 / 64) :: b64Char (b2 % 64) :: b64Encode rest

/-- Base64 decoding to a byte list (models `atob` /
`base64ToArrayBuffer`); `none` models the thrown decoding error. -/
def b64Decode : List Nat → Option (List Nat)
  | [] => some []
  | c0 :: c1 :: c2 :: c3 :: rest =>
    match b64Index c0, b64Index c1 with
    | some i0, some i1 =>
      if c2 = 61 then
        if c3 = 61 ∧ rest = [] then some [i0 * 4 + i1 / 16] else none
      else
        match b64Index c2 with
        | some i2 =>
          if c3 = 61 then
            if rest = [] then some [i0 * 4 + i1 / 16, i1 % 16 * 16 + i2 / 4] else none
          else
            match b64Index c3 with
            | some i3 =>
              (b64Decode rest).map
                (fun bs => (i0 * 4 + i1 / 16) :: (i1 % 16 * 16 + i2 / 4) :: (i2 % 4 * 64 + i3) :: bs)
            | none => none
        | none => none
    | _, _ => none
  | _ => none

/-- UTF-8 bytes of one code point of the basic multilingual plane. -/
def encBMP (c : Nat) : List Nat :=
  if c < 128 then [c]
  else if c < 2048 then [192 + c / 64, 128 + c % 64]
  else [224 + c / 4096, 128 + c / 64 % 64, 128 + c % 64]

/-- Code point of the surrogate pair `c, d`. -/
def pairCP (c d : Nat) : Nat := 65536 + (c - 55296) * 1024 + (d - 56320)

/-- UTF-8 bytes of the code point written as the surrogate pair `c, d`. -/
def enc4 (c d : Nat) : List Nat :=
  [240 + pairCP c d / 262144, 128 + pairCP c d / 4096 % 64,
   128 + pairCP c d / 64 % 64, 128 + pairCP c d % 64]

/-- Strict UTF-16 to UTF-8 conversion: `none` on a lone surrogate.
This is the conversion performed by `unescape(encodeURIComponent(s))`
in `safeBase64Encode` (`encodeURIComponent` throws `URIError` on a
lone surrogate). -/
def utf16ToUtf8 : List Nat → Option (List Nat)
  | [] => some []
  | [c] =>
    if c < 55296 ∨ (57344 ≤ c ∧ c < 65536) then some (encBMP c) else none
  | c :: d :: rest =>
    if c < 55296 ∨ (57344 ≤ c ∧ c < 65536) then
      (utf16ToUtf8 (d :: rest)).map (fun bs => encBMP c ++ bs)
    else if 55296 ≤ c ∧ c < 56320 ∧ 56320 ≤ d ∧ d < 57344 then
      (utf16ToUtf8 rest).map (fun bs => enc4 c d ++ bs)
    else none

/-- Lossy UTF-16 to UTF-8 conversion: a lone surrogate becomes the
replacement character U+FFFD (bytes `EF BF BD`).  This is the
conversion performed by `TextEncoder.encode`. -/
def utf16ToUtf8Lossy : List Nat → List Nat
  | [] => []
  | [c] =>
    if c < 55296 ∨ (57344 ≤ c ∧ c < 65536) then encBMP c else [239, 191, 189]
  | c :: d :: rest =>
    if c < 55296 ∨ (57344 ≤ c ∧ c < 65536) then
      encBMP c ++ utf16ToUtf8Lossy (d :: rest)
    else if 55296 ≤ c ∧ c < 56320 ∧ 56320 ≤ d ∧ d < 57344 then
      enc4 c d ++ utf16ToUtf8Lossy rest
    else [239, 191, 189] ++ utf16ToUtf8Lossy (d :: rest)

/-- Value of a 2-byte UTF-8 sequence. -/
def dec2 (b b1 : Nat) : Nat := (b - 192) * 64 + (b1 - 128)

/-- Value of a 3-byte UTF-8 sequence. -/
def dec3 (b b1 b2 : Nat) : Nat := (b - 224) * 4096 + (b1 - 128) * 64 + (b2 - 128)

/-- Value of a 4-byte UTF-8 sequence. -/
def dec4 (b b1 b2 b3 : Nat) : Nat :=
  (b - 240) * 262144 + (b1 - 128) * 4096 + (b2 - 128) * 64 + (b3 - 128)

/-- High surrogate of a supplementary code point. -/
def hiSur (cp : Nat) : Nat := 55296 + (cp - 65536) / 1024

/-- Low surrogate of a supplementary code point. -/
def loSur (cp : Nat) : Nat := 56320 + (cp - 65536) % 1024

/-- Whether a byte is a UTF-8 continuation byte. -/
def isCont (b : Nat) : Prop := 128 ≤ b ∧ b < 192

instance (b : Nat) : Decidable (isCont b) := by unfold isCont; infer_instance

/-- Whether a 3-byte value is in range and not a surrogate. -/
def ok3 (c : Nat) : Prop := 2048 ≤ c ∧ (c < 55296 ∨ 57344 ≤ c)

instance (c : Nat) : Decidable (ok3 c) := by unfold ok3; infer_instance

/-- Whether a 4-byte value is a supplementary code point. -/
def ok4 (cp : Nat) : Prop := 65536 ≤ cp ∧ cp < 1114112

instance (cp : Nat) : Decidable (ok4 cp) := by unfold ok4; infer_instance

/-- Strict UTF-8 decoding to UTF-16 code units; rejects truncated,
overlong and surrogate-encoding sequences.  This is the conversion
performed by `decodeURIComponent(escape(b))` in `safeBase64Decode`
(it throws `URIError` on malformed UTF-8). -/
def utf8Decode : List Nat → Option (List Nat)
  | [] => some []
  | b :: rest =>
    if b < 128 then (utf8Decode rest).map (fun s => b :: s)
    else
      match rest with
      | [] => none
      | b1 :: r =>
        if 194 ≤ b ∧ b < 224 then
          if isCont b1 then (utf8Decode r).map (fun s => dec2 b b1 :: s) else none
        else
          match r with
          | [] => none
          | b2 :: r2 =>
            if 224 ≤ b ∧ b < 240 then
              if isCont b1 ∧ isCont b2 then
                if ok3 (dec3 b b1 b2) then
                  (utf8Decode r2).map (fun s => dec3 b b1 b2 :: s)
                else none
              else none
            else
              match r2 with
              | [] => none
              | b3 :: r3 =>
                if 240 ≤ b ∧ b < 245 then
                  if isCont b1 ∧ isCont b2 ∧ isCont b3 then
                    if ok4 (dec4 b b1 b2 b3) then
                      (utf8Decode r3).map
                        (fun s => hiSur (dec4 b b1 b2 b3) :: loSur (dec4 b b1 b2 b3) :: s)
                    else none
                  else none
                else none

/-- Lossy UTF-8 decoding: a malformed sequence becomes U+FFFD and
decoding continues.  Models the non-fatal `TextDecoder.decode`; the
replacement policy on malformed bytes is simplified (replacements and
resynchronisation points may differ from the WHATWG maximal-subpart
rule), which is immaterial here: the only property used is that it
agrees with the strict `utf8Decode` on every well-formed input
(`utf8DecodeLossy_utf16`), and the AES path only ever decodes
well-formed output of the AEAD round trip. -/
def utf8DecodeLossy : List Nat → List Nat
  | [] => []
  | b :: rest =>
    if b < 128 then b :: utf8DecodeLossy rest
    else
      match rest with
      | [] => [65533]
      | b1 :: r =>
        if 194 ≤ b ∧ b < 224 then
          if isCont b1 then dec2 b b1 :: utf8DecodeLossy r
          else 65533 :: utf8DecodeLossy r
        else
          match r with
          | [] => [65533]
          | b2 :: r2 =>
            if 224 ≤ b ∧ b < 240 then
              if isCont b1 ∧ isCont b2 then
                if ok3 (dec3 b b1 b2) then dec3 b b1 b2 :: utf8DecodeLossy r2
                else 65533 :: utf8DecodeLossy r2
              else 65533 :: utf8DecodeLossy r2
            else
              match r2 with
              | [] => [65533]
              | b3 :: r3 =>
                if 240 ≤ b ∧ b < 245 then
                  if isCont b1 ∧ isCont b2 ∧ isCont b3 then
                    if ok4 (dec4 b b1 b2 b3) then
                      hiSur (dec4 b b1 b2 b3) :: loSur (dec4 b b1 b2 b3) ::
                        utf8DecodeLossy r3
                    else 65533 :: utf8DecodeLossy r3
                  else 65533 :: utf8DecodeLossy r3
                else 65533 :: utf8DecodeLossy r3

/-- Unicode-safe Base64 encoding of a string
(`safeBase64Encode(str) = btoa(unescape(encodeURIComponent(str)))`). -/
def safeBase64Encode (s : List Nat) : Option (List Nat) :=
  (utf16ToUtf8 s).map b64Encode

/-- Unicode-safe Base64 decoding of a string
(`safeBase64Decode(b64) = decodeURIComponent(escape(atob(b64)))`). -/
def safeBase64Decode (b : List Nat) : Option (List Nat) :=
  (b64Decode b).bind utf8Decode

/-- XOR of the text with the key repeated to the text's length, one code
unit at a time: `text[i] XOR fullKey[i]` with `fullKey[i] = key[i mod |key|]`
(the `for` loop body of `oneTimePad`; the index form is the closed form of
the `while (fullKey.length < text.length) fullKey += key` repetition). -/
def otpXorAux (key : List Nat) : Nat → List Nat → List Nat
  | _, [] => []
  | i, c :: rest => (c ^^^ key.getD (i % key.length) 0) :: otpXorAux key (i + 1) rest

/-- XOR of `text` with the repeated `key`, starting at index 0. -/
def otpXor (text key : List Nat) : List Nat :=
  otpXorAux key 0 text

/-- Body of `oneTimePad` in `browser-crypto.ts` after the key-repetition
loop: validation of `text` and `key`, the XOR pass, and (on encrypt)
`safeBase64Encode` of the raw XOR output. -/
def otpResult (text key : List Nat) (encrypt : Bool) : Except Err (List Nat) :=
  if text = [] then .error .emptyText
  else if key = [] then .error .emptyKey
  else
    let r := otpXor text key
    if encrypt then
      match safeBase64Encode r with
      | some b => .ok b
      | none => .error .encodeFailed
    else .ok r

/-- The `oneTimePad` function of `browser-crypto.ts`.  The key-repetition
loop runs before the validation; with an empty key and a non-empty text it
never terminates, which the model records as `none` (substantiated by the
fuel-indexed model `oneTimePadFuel` below). -/
def oneTimePad (text key : List Nat) (encrypt : Bool) : Option (Except Err (List Nat)) :=
  if key = [] ∧ text ≠ [] then none else some (otpResult text key encrypt)

/-- Fuel-indexed model of the key-repetition loop
`let fullKey = key; while (fullKey.length < target) fullKey += key`:
`none` when the loop has not finished within `fuel` iterations. -/
def repeatLoop (key : List Nat) (target : Nat) : Nat → List Nat → Option (List Nat)
  | 0, full => if full.length < target then none else some full
  | fuel + 1, full =>
    if full.length < target then repeatLoop key target fuel (full ++ key) else some full

/-- Fuel-indexed model of the whole `oneTimePad` function, statement by
statement: repetition loop first, then the two validations, then the XOR
pass over `text` indexing into the computed `fullKey`, then the optional
Base64 framing. -/
def oneTimePadFuel (fuel : Nat) (text key : List Nat) (encrypt : Bool) :
    Option (Except Err (List Nat)) :=
  match repeatLoop key text.length fuel key with
  | none => none
  | some fullKey =>
    some (if text = [] then .error .emptyText
          else if key = [] then .error .emptyKey
          else
            let r := (List.range text.length).map (fun i => text.getD i 0 ^^^ fullKey.getD i 0)
            if encrypt then
              match safeBase64Encode r with
              | some b => .ok b
              | none => .error .encodeFailed
            else .ok r)

/-- Interface of the external Web-Crypto collaborators used by the AES
path: `hash` models the SHA-256 digest of `importKey`, `enc`/`dec` model
`crypto.subtle.encrypt`/`decrypt` with AES-GCM (key bytes, 12-byte IV,
plaintext bytes).  The fields state what the spec assumes of the
platform: byte-valued output, ciphertext length = plaintext length plus
the 16-byte tag, and decryption inverting encryption under the same key
and IV. -/
structure AEAD where
  hash : List Nat → List Nat
  enc : List Nat → List Nat → List Nat → List Nat
  dec : List Nat → List Nat → List Nat → Option (List Nat)
  enc_len : ∀ dk iv pt, (enc dk iv pt).length = pt.length + 16
  enc_bytes_lt : ∀ dk iv pt, ∀ b ∈ enc dk iv pt, b < 256
  dec_enc : ∀ dk iv pt, (∀ b ∈ pt, b < 256) → dec dk iv (enc dk iv pt) = some pt

/-- The `importKey` helper: SHA-256 of the UTF-8 bytes of the passphrase
(`TextEncoder.encode` is the lossy conversion). -/
def importKeyBytes (A : AEAD) (key : List Nat) : List Nat :=
  A.hash (utf16ToUtf8Lossy key)

/-- The `browserEncrypt` function of `browser-crypto.ts`.  The fresh
random 12-byte IV of the AES path is passed in as the `iv` argument
(the embedding of `generateIV`'s output). -/
def browserEncrypt (A : AEAD) (iv : List Nat) (text key : List Nat)
    (algo : EncryptionAlgorithm) : Except Err (List Nat) :=
  if text = [] then .error .emptyText
  else if key = [] then .error .emptyKey
  else
    match algo with
    | .OTP => otpResult text key true
    | .AES =>
      .ok (b64Encode (iv ++ A.enc (importKeyBytes A key) iv (utf16ToUtf8Lossy text)))
    | _ =>
      match safeBase64Encode (text ++ key) with
      | some b => .ok b
      | none => .error .encodeFailed

/-- The `browserDecrypt` function of `browser-crypto.ts`: OTP path
(Base64-decode then XOR), AES path (Base64-decode, split at byte 12 into
IV and ciphertext, authenticated decrypt, lossy UTF-8 decode), and the
fallback path (Base64-decode and strip the trailing `key.length`
characters). -/
def browserDecrypt (A : AEAD) (ciphertext key : List Nat)
    (algo : EncryptionAlgorithm) : Except Err (List Nat) :=
  if ciphertext = [] then .error .emptyCiphertext
  else if key = [] then .error .emptyKey
  else
    match algo with
    | .OTP =>
      match safeBase64Decode ciphertext with
      | none => .error .decodeFailed
      | some decoded => otpResult decoded key false
    | .AES =>
      match b64Decode ciphertext with
      | none => .error .decodeFailed
      | some combined =>
        if combined.length ≤ 12 then .error .invalidCiphertextLength
        else
          match A.dec (importKeyBytes A key) (combined.take 12) (combined.drop 12) with
          | some pt => .ok (utf8DecodeLossy pt)
          | none => .error .authFailure
    | _ =>
      match safeBase64Decode ciphertext with
      | none => .error .decodeFailed
      | some decoded => .ok (decoded.take (decoded.length - key.length))

/-- Encrypt-then-decrypt composition used by the round-trip claims. -/
def roundTrip (A : AEAD) (iv text key : List Nat) (algo : EncryptionAlgorithm) :
    Except Err (List Nat) :=
  (browserEncrypt A iv text key algo).bind fun ct => browserDecrypt A ct key algo

/-- Flip bit `i` (byte `i / 8`, bit `i % 8`) of a byte list. -/
def flipBit (i : Nat) (bs : List Nat) : List Nat :=
  bs.set (i / 8) (bs.getD (i / 8) 0 ^^^ 2 ^ (i % 8))

/-- Checksum used by the toy authenticated cipher below. -/
def toyChecksum (dk iv body : List Nat) : Nat :=
  (dk.sum + iv.sum + body.sum) % 256

/-- A concrete instance of the `AEAD` interface (used by the witnesses):
the body is the plaintext reduced mod 256 and the tag is a 16-byte
repeated checksum over key, IV and body; decryption recomputes and
checks the tag. -/
def toyAEAD : AEAD where
  hash := fun bs => bs
  enc := fun dk iv pt =>
    pt.map (fun b => b % 256) ++
      List.replicate 16 (toyChecksum dk iv (pt.map (fun b => b % 256)))
  dec := fun dk iv c =>
    if c.length < 16 then none
    else
      let body := c.take (c.length - 16)
      let tag := c.drop (c.length - 16)
      if tag = List.replicate 16 (toyChecksum dk iv body) then some body else none
  enc_len := by
    intro dk iv pt
    simp
  enc_bytes_lt := by
    intro dk iv pt b hb
    rcases List.mem_append.mp hb with h | h
    · rcases List.mem_map.mp h with ⟨a, _, rfl⟩
      exact Nat.mod_lt _ (by omega)
    · rcases List.eq_of_mem_replicate h with rfl
      exact Nat.mod_lt _ (by omega)
  dec_enc := by
    intro dk iv pt hpt
    have hmap : pt.map (fun b => b % 256) = pt := by
      rw [List.map_congr_left (fun b hb => Nat.mod_eq_of_lt (hpt b hb))]
      exact List.map_id pt
    simp only [hmap, List.length_append, List.length_replicate]
    have h1 : ¬ pt.length + 16 < 16 := by omega
    have h2 : pt.length + 16 - 16 = pt.length := by omega
    simp only [if_neg h1, h2]
    rw [List.take_left' rfl, List.drop_left' rfl]
    simp

/-- Interface of the CryptoJS library consumed by `encryption-service.ts`
(an external collaborator): one encrypt and one decrypt function per
library-backed algorithm, taking the text and the key. -/
structure CryptoJSLib where
  aesE : List Nat → List Nat → List Nat
  desE : List Nat → List Nat → List Nat
  tdesE : List Nat → List Nat → List Nat
  rabbitE : List Nat → List Nat → List Nat
  rc4E : List Nat → List Nat → List Nat
  aesD : List Nat → List Nat → List Nat
  desD : List Nat → List Nat → List Nat
  tdesD : List Nat → List Nat → List Nat
  rabbitD : List Nat → List Nat → List Nat
  rc4D : List Nat → List Nat → List Nat

/-- A trivial instance of the CryptoJS interface (used by witnesses). -/
def trivLib : CryptoJSLib where
  aesE := fun _ _ => []
  desE := fun _ _ => []
  tdesE := fun _ _ => []
  rabbitE := fun _ _ => []
  rc4E := fun _ _ => []
  aesD := fun _ _ => []
  desD := fun _ _ => []
  tdesD := fun _ _ => []
  rabbitD := fun _ _ => []
  rc4D := fun _ _ => []

/-- The `oneTimePad` function of `encryption-service.ts`: same repetition
loop (hence the same divergence on an empty key with non-empty text),
no validation, and plain `btoa` framing on encrypt (`btoa` throws on a
code unit above 255, modelled by the character bound check). -/
def svcOneTimePad (text key : List Nat) (encrypt : Bool) :
    Option (Except Err (List Nat)) :=
  if key = [] ∧ text ≠ [] then none
  else
    some (let r := otpXor text key
          if encrypt then
            if ∀ c ∈ r, c < 256 then .ok (b64Encode r) else .error .encodeFailed
          else .ok r)

/-- The `encrypt` function of `encryption-service.ts`: switch over the
algorithm; CryptoJS-backed branches delegate to the library, OTP to the
service `oneTimePad`, and RSA, ECC, Blowfish and ChaCha20 throw a
not-implemented error before any computation. -/
def svcEncrypt (L : CryptoJSLib) (text key : List Nat)
    (algo : EncryptionAlgorithm) : Option (Except Err (List Nat)) :=
  match algo with
  | .AES => some (.ok (L.aesE text key))
  | .DES => some (.ok (L.desE text key))
  | .TripleDES => some (.ok (L.tdesE text key))
  | .Rabbit => some (.ok (L.rabbitE text key))
  | .RC4 => some (.ok (L.rc4E text key))
  | .OTP => svcOneTimePad text key true
  | .RSA => some (.error (.notImplemented .RSA))
  | .ECC => some (.error (.notImplemented .ECC))
  | .Blowfish => some (.error (.notImplemented .Blowfish))
  | .ChaCha20 => some (.error (.notImplemented .ChaCha20))

/-- The `decrypt` function of `encryption-service.ts`; the OTP branch is
`oneTimePad(atob(ciphertext), key, false)`. -/
def svcDecrypt (L : CryptoJSLib) (ciphertext key : List Nat)
    (algo : EncryptionAlgorithm) : Option (Except Err (List Nat)) :=
  match algo with
  | .AES => some (.ok (L.aesD ciphertext key))
  | .DES => some (.ok (L.desD ciphertext key))
  | .TripleDES => some (.ok (L.tdesD ciphertext key))
  | .Rabbit => some (.ok (L.rabbitD ciphertext key))
  | .RC4 => some (.ok (L.rc4D ciphertext key))
  | .OTP =>
    match b64Decode ciphertext with
    | none => some (.error .decodeFailed)
    | some decoded => svcOneTimePad decoded key false
  | .RSA => some (.error (.notImplemented .RSA))
  | .ECC => some (.error (.notImplemented .ECC))
  | .Blowfish => some (.error (.notImplemented .Blowfish))
  | .ChaCha20 => some (.error (.notImplemented .ChaCha20))

/-- The `measureKeyStrength` function (identical in `browser-crypto.ts`
and `encryption-service.ts`):
`Math.round(min(length/16,1)*40 + min(uniqueChars/64,1)*60)`, with
`uniqueChars` the number of distinct code units.  All intermediate
values are exactly representable in binary floating point (the divisors
16 and 64 are powers of two), so exact rational arithmetic models the
computation faithfully; `Math.round` on non-negative input is
`⌊x + 1/2⌋`. -/
def measureKeyStrength (key : List Nat) : ℤ :=
  ⌊(min ((key.length : ℚ) / 16) 1 * 40 + min ((key.dedup.length : ℚ) / 64) 1 * 60 : ℚ) + 1 / 2⌋

/-- Modelled from the spec's formula text
`score = round(40 * min(len/16, 1) + 60 * min(uniqueChars/64, 1))`, for
comparison with `measureKeyStrength`. -/
def specKeyStrength (key : List Nat) : ℤ :=
  ⌊(40 * min ((key.length : ℚ) / 16) 1 + 60 * min ((key.dedup.length : ℚ) / 64) 1 : ℚ) + 1 / 2⌋

/-- The 5 MB one-pass size ceiling `CHUNK_SIZE` of
`browser-file-crypto.ts`. -/
def CHUNK_SIZE : Nat := 5 * 1024 * 1024

/-- Code units of the string `application/octet-stream`. -/
def octetStream : List Nat :=
  [97, 112, 112, 108, 105, 99, 97, 116, 105, 111, 110, 47, 111, 99, 116, 101,
   116, 45, 115, 116, 114, 101, 97, 109]

/-- A file as the file-packaging layer sees it: raw bytes, name and MIME
type (the `File` object's `size` is `bytes.length`). -/
structure FileData where
  bytes : List Nat
  name : List Nat
  type : List Nat
  deriving DecidableEq

/-- The JSON envelope `{metadata: {originalFileName, originalFileType,
algorithm, params}, data}` written by `browserEncryptFile`
(`JSON.stringify`/`JSON.parse` round-trip strings losslessly, so the
envelope is modelled structurally; the recorded `params` are never read
by `browserDecrypt` and are omitted). -/
structure Envelope where
  originalFileName : List Nat
  originalFileType : List Nat
  algorithm : EncryptionAlgorithm
  data : List Nat
  deriving DecidableEq

/-- Result of `browserDecryptFile` (the fields the claims are about). -/
structure FileDecryptResult where
  result : List Nat
  originalFileName : List Nat
  originalFileType : List Nat
  deriving DecidableEq

/-- The `browserEncryptFile` function of `browser-file-crypto.ts`: key
validation, the `CHUNK_SIZE` ceiling check, `fileToBase64` (the
data-URL Base64 of the raw bytes), `browserEncrypt` on that text, and
the envelope with `file.type || 'application/octet-stream'`. -/
def browserEncryptFile (A : AEAD) (iv : List Nat) (file : FileData)
    (key : List Nat) (algo : EncryptionAlgorithm) : Except Err Envelope :=
  if key = [] then .error .emptyKey
  else if file.bytes.length ≤ CHUNK_SIZE then
    match browserEncrypt A iv (b64Encode file.bytes) key algo with
    | .error e => .error e
    | .ok ct =>
      .ok { originalFileName := file.name
            originalFileType := if file.type = [] then octetStream else file.type
            algorithm := algo
            data := ct }
  else .error .fileTooLarge

/-- The `browserDecryptFile` function of `browser-file-crypto.ts`:
validations (key, missing `data`, missing `originalFileName`),
`browserDecrypt` with the algorithm recorded in the envelope, the
empty-result check, and `originalFileType || 'application/octet-stream'`
on output. -/
def browserDecryptFile (A : AEAD) (env : Envelope) (key : List Nat) :
    Except Err FileDecryptResult :=
  if key = [] then .error .emptyKey
  else if env.data = [] then .error .malformedEnvelope
  else if env.originalFileName = [] then .error .missingMetadata
  else
    match browserDecrypt A env.data key env.algorithm with
    | .error e => .error e
    | .ok r =>
      if r = [] then .error .emptyResult
      else
        .ok { result := r
              originalFileName := env.originalFileName
              originalFileType :=
                if env.originalFileType = [] then octetStream else env.originalFileType }

/-- Package-encrypt followed by package-decrypt with the same key. -/
def fileRoundTrip (A : AEAD) (iv : List Nat) (file : FileData) (key : List Nat)
    (algo : EncryptionAlgorithm) : Except Err FileDecryptResult :=
  (browserEncryptFile A iv file key algo).bind fun env => browserDecryptFile A env key

/-- Every Base64 alphabet character (and the padding character) is ASCII. -/
theorem b64Char_lt_128 (i : Nat) : b64Char i < 128 := by
  unfold b64Char
  split_ifs <;> omega

theorem b64Char_ne_61 (i : Nat) (h : i < 64) : b64Char i ≠ 61 := by
  unfold b64Char
  split_ifs <;> omega

theorem b64Index_b64Char (i : Nat) (h : i < 64) : b64Index (b64Char i) = some i := by
  unfold b64Char b64Index
  split_ifs <;> simp_all <;> omega

/-- Base64 decoding inverts Base64 encoding on byte lists. -/
theorem b64_roundtrip (bs : List Nat) (h : ∀ b ∈ bs, b < 256) :
    b64Decode (b64Encode bs) = some bs := by
  induction bs using b64Encode.induct with
  | case1 => rfl
  | case2 b0 =>
    have hb0 : b0 < 256 := h b0 (by simp)
    have e0 : b64Index (b64Char (b0 / 4)) = some (b0 / 4) := b64Index_b64Char _ (by omega)
    have e1 : b64Index (b64Char (b0 % 4 * 16)) = some (b0 % 4 * 16) :=
      b64Index_b64Char _ (by omega)
    simp [b64Encode, b64Decode, e0, e1]
    omega
  | case3 b0 b1 =>
    have hb0 : b0 < 256 := h b0 (by simp)
    have hb1 : b1 < 256 := h b1 (by simp)
    have e0 : b64Index (b64Char (b0 / 4)) = some (b0 / 4) := b64Index_b64Char _ (by omega)
    have e1 : b64Index (b64Char (b0 % 4 * 16 + b1 / 16)) = some (b0 % 4 * 16 + b1 / 16) :=
      b64Index_b64Char _ (by omega)
    have e2 : b64Index (b64Char (b1 % 16 * 4)) = some (b1 % 16 * 4) :=
      b64Index_b64Char _ (by omega)
    have n2 : b64Char (b1 % 16 * 4) ≠ 61 := b64Char_ne_61 _ (by omega)
    simp [b64Encode, b64Decode, e0, e1, e2, n2]
    omega
  | case4 b0 b1 b2 rest ih =>
    have hb0 : b0 < 256 := h b0 (by simp)
    have hb1 : b1 < 256 := h b1 (by simp)
    have hb2 : b2 < 256 := h b2 (by simp)
    have ih' : b64Decode (b64Encode rest) = some rest :=
      ih (fun b hb => h b (by simp [hb]))
    have e0 : b64Index (b64Char (b0 / 4)) = some (b0 / 4) := b64Index_b64Char _ (by omega)
    have e1 : b64Index (b64Char (b0 % 4 * 16 + b1 / 16)) = some (b0 % 4 * 16 + b1 / 16) :=
      b64Index_b64Char _ (by omega)
    have e2 : b64Index (b64Char (b1 % 16 * 4 + b2 / 64)) = some (b1 % 16 * 4 + b2 / 64) :=
      b64Index_b64Char _ (by omega)
    have e3 : b64Index (b64Char (b2 % 64)) = some (b2 % 64) := b64Index_b64Char _ (by omega)
    have n2 : b64Char (b1 % 16 * 4 + b2 / 64) ≠ 61 := b64Char_ne_61 _ (by omega)
    have n3 : b64Char (b2 % 64) ≠ 61 := b64Char_ne_61 _ (by omega)
    simp [b64Encode, b64Decode, e0, e1, e2, e3, n2, n3, ih']
    refine ⟨by omega, by omega, by omega⟩

/-- The Base64 string of any byte list consists of ASCII characters. -/
theorem b64Encode_ascii (bs : List Nat) : ∀ c ∈ b64Encode bs, c < 128 := by
  induction bs using b64Encode.induct with
  | case1 => simp [b64Encode]
  | case2 b0 =>
    simp [b64Encode]
    exact ⟨b64Char_lt_128 _, b64Char_lt_128 _⟩
  | case3 b0 b1 =>
    simp [b64Encode]
    exact ⟨b64Char_lt_128 _, b64Char_lt_128 _, b64Char_lt_128 _⟩
  | case4 b0 b1 b2 rest ih =>
    intro c hc
    simp only [b64Encode, List.mem_cons] at hc
    rcases hc with rfl | rfl | rfl | rfl | hc
    · exact b64Char_lt_128 _
    · exact b64Char_lt_128 _
    · exact b64Char_lt_128 _
    · exact b64Char_lt_128 _
    · exact ih c hc

theorem b64Encode_ne_nil (bs : List Nat) (h : bs ≠ []) : b64Encode bs ≠ [] := by
  match bs with
  | [] => exact absurd rfl h
  | [b0] => simp [b64Encode]
  | [b0, b1] => simp [b64Encode]
  | b0 :: b1 :: b2 :: rest => simp [b64Encode]

theorem encBMP_lt (c : Nat) (h : c < 65536) : ∀ b ∈ encBMP c, b < 256 := by
  unfold encBMP
  split_ifs <;> simp <;> omega

theorem enc4_lt (c d : Nat) (hc : 55296 ≤ c ∧ c < 56320) (hd : 56320 ≤ d ∧ d < 57344) :
    ∀ b ∈ enc4 c d, b < 256 := by
  unfold enc4 pairCP
  simp
  omega

theorem encBMP_ne_nil (c : Nat) : encBMP c ≠ [] := by
  unfold encBMP
  split_ifs <;> simp

theorem utf8Decode_encBMP (c : Nat) (tail : List Nat)
    (h : c < 55296 ∨ (57344 ≤ c ∧ c < 65536)) :
    utf8Decode (encBMP c ++ tail) = (utf8Decode tail).map (fun s => c :: s) := by
  unfold encBMP
  split_ifs with h1 h2
  · simp only [List.cons_append, List.nil_append]
    rw [utf8Decode.eq_def]
    dsimp only
    rw [if_pos h1]
  · simp only [List.cons_append, List.nil_append]
    have e1 : ¬ (192 + c / 64 < 128) := by omega
    have e2 : 194 ≤ 192 + c / 64 ∧ 192 + c / 64 < 224 := by omega
    have e3 : isCont (128 + c % 64) := by unfold isCont; omega
    rw [utf8Decode.eq_def]
    dsimp only
    rw [if_neg e1]
    simp only [if_pos e2, if_pos e3]
    congr 1
    funext s
    simp [dec2]
    omega
  · simp only [List.cons_append, List.nil_append]
    have e1 : ¬ (224 + c / 4096 < 128) := by omega
    have e2 : ¬ (194 ≤ 224 + c / 4096 ∧ 224 + c / 4096 < 224) := by omega
    have e3 : 224 ≤ 224 + c / 4096 ∧ 224 + c / 4096 < 240 := by omega
    have e4 : isCont (128 + c / 64 % 64) ∧ isCont (128 + c % 64) := by
      unfold isCont; omega
    have e5 : ok3 (dec3 (224 + c / 4096) (128 + c / 64 % 64) (128 + c % 64)) := by
      unfold ok3 dec3; omega
    rw [utf8Decode.eq_def]
    dsimp only
    rw [if_neg e1]
    simp only [if_neg e2, if_pos e3, if_pos e4, if_pos e5]
    congr 1
    funext s
    simp [dec3]
    omega

theorem utf8Decode_enc4 (c d : Nat) (tail : List Nat)
    (hc : 55296 ≤ c ∧ c < 56320) (hd : 56320 ≤ d ∧ d < 57344) :
    utf8Decode (enc4 c d ++ tail) = (utf8Decode tail).map (fun s => c :: d :: s) := by
  unfold enc4
  have hcp : 65536 ≤ pairCP c d ∧ pairCP c d < 1114112 := by unfold pairCP; omega
  simp only [List.cons_append, List.nil_append]
  have e1 : ¬ (240 + pairCP c d / 262144 < 128) := by omega
  have e2 : ¬ (194 ≤ 240 + pairCP c d / 262144 ∧ 240 + pairCP c d / 262144 < 224) := by omega
  have e3 : ¬ (224 ≤ 240 + pairCP c d / 262144 ∧ 240 + pairCP c d / 262144 < 240) := by omega
  have e4 : 240 ≤ 240 + pairCP c d / 262144 ∧ 240 + pairCP c d / 262144 < 245 := by omega
  have e5 : isCont (128 + pairCP c d / 4096 % 64) ∧ isCont (128 + pairCP c d / 64 % 64) ∧
      isCont (128 + pairCP c d % 64) := by unfold isCont; omega
  have e6 : ok4 (dec4 (240 + pairCP c d / 262144) (128 + pairCP c d / 4096 % 64)
      (128 + pairCP c d / 64 % 64) (128 + pairCP c d % 64)) := by
    unfold ok4 dec4; omega
  have e7 : dec4 (240 + pairCP c d / 262144) (128 + pairCP c d / 4096 % 64)
      (128 + pairCP c d / 64 % 64) (128 + pairCP c d % 64) = pairCP c d := by
    unfold dec4; omega
  have hok : ok4 (pairCP c d) := by unfold ok4; omega
  have h1 : hiSur (pairCP c d) = c := by unfold hiSur pairCP; omega
  have h2 : loSur (pairCP c d) = d := by unfold loSur pairCP; omega
  rw [utf8Decode.eq_def]
  dsimp only
  rw [if_neg e1]
  simp only [if_neg e2, if_neg e3, if_pos e4, if_pos e5, e7]
  rw [h1, h2, if_pos hok]

theorem utf8Decode_utf16 (s : List Nat) (bs : List Nat) (h : utf16ToUtf8 s = some bs) :
    utf8Decode bs = some s := by
  induction s using utf16ToUtf8.induct generalizing bs with
  | case1 =>
    simp only [utf16ToUtf8, Option.some.injEq] at h
    subst h
    rfl
  | case2 c hv =>
    rw [utf16ToUtf8, if_pos hv] at h
    simp only [Option.some.injEq] at h
    subst h
    have := utf8Decode_encBMP c [] hv
    simpa using this
  | case3 c hv =>
    rw [utf16ToUtf8, if_neg hv] at h
    exact absurd h (by simp)
  | case4 c d rest hv ih =>
    rw [utf16ToUtf8, if_pos hv] at h
    rcases Option.map_eq_some'.mp h with ⟨bs', hbs', rfl⟩
    rw [utf8Decode_encBMP c _ hv, ih bs' hbs']
    rfl
  | case5 c d rest hv hp ih =>
    rw [utf16ToUtf8, if_neg hv, if_pos hp] at h
    rcases Option.map_eq_some'.mp h with ⟨bs', hbs', rfl⟩
    rw [utf8Decode_enc4 c d _ ⟨hp.1, hp.2.1⟩ ⟨hp.2.2.1, hp.2.2.2⟩, ih bs' hbs']
    rfl
  | case6 c d rest hv hp =>
    rw [utf16ToUtf8, if_neg hv, if_neg hp] at h
    exact absurd h (by simp)

theorem utf8DecodeLossy_encBMP (c : Nat) (tail : List Nat)
    (h : c < 55296 ∨ (57344 ≤ c ∧ c < 65536)) :
    utf8DecodeLossy (encBMP c ++ tail) = c :: utf8DecodeLossy tail := by
  unfold encBMP
  split_ifs with h1 h2
  · simp only [List.cons_append, List.nil_append]
    rw [utf8DecodeLossy.eq_def]
    dsimp only
    rw [if_pos h1]
  · simp only [List.cons_append, List.nil_append]
    have e1 : ¬ (192 + c / 64 < 128) := by omega
    have e2 : 194 ≤ 192 + c / 64 ∧ 192 + c / 64 < 224 := by omega
    have e3 : isCont (128 + c % 64) := by unfold isCont; omega
    have e4 : dec2 (192 + c / 64) (128 + c % 64) = c := by unfold dec2; omega
    rw [utf8DecodeLossy.eq_def]
    dsimp only
    rw [if_neg e1]
    simp only [if_pos e2, if_pos e3, e4]
  · simp only [List.cons_append, List.nil_append]
    have e1 : ¬ (224 + c / 4096 < 128) := by omega
    have e2 : ¬ (194 ≤ 224 + c / 4096 ∧ 224 + c / 4096 < 224) := by omega
    have e3 : 224 ≤ 224 + c / 4096 ∧ 224 + c / 4096 < 240 := by omega
    have e4 : isCont (128 + c / 64 % 64) ∧ isCont (128 + c % 64) := by
      unfold isCont; omega
    have e5 : dec3 (224 + c / 4096) (128 + c / 64 % 64) (128 + c % 64) = c := by
      unfold dec3; omega
    have e6 : ok3 c := by unfold ok3; omega
    rw [utf8DecodeLossy.eq_def]
    dsimp only
    rw [if_neg e1]
    simp only [if_neg e2, if_pos e3, if_pos e4, e5, if_pos e6]

theorem utf8DecodeLossy_enc4 (c d : Nat) (tail : List Nat)
    (hc : 55296 ≤ c ∧ c < 56320) (hd : 56320 ≤ d ∧ d < 57344) :
    utf8DecodeLossy (enc4 c d ++ tail) = c :: d :: utf8DecodeLossy tail := by
  unfold enc4
  have hcp : 65536 ≤ pairCP c d ∧ pairCP c d < 1114112 := by unfold pairCP; omega
  simp only [List.cons_append, List.nil_append]
  have e1 : ¬ (240 + pairCP c d / 262144 < 128) := by omega
  have e2 : ¬ (194 ≤ 240 + pairCP c d / 262144 ∧ 240 + pairCP c d / 262144 < 224) := by omega
  have e3 : ¬ (224 ≤ 240 + pairCP c d / 262144 ∧ 240 + pairCP c d / 262144 < 240) := by omega
  have e4 : 240 ≤ 240 + pairCP c d / 262144 ∧ 240 + pairCP c d / 262144 < 245 := by omega
  have e5 : isCont (128 + pairCP c d / 4096 % 64) ∧ isCont (128 + pairCP c d / 64 % 64) ∧
      isCont (128 + pairCP c d % 64) := by unfold isCont; omega
  have e7 : dec4 (240 + pairCP c d / 262144) (128 + pairCP c d / 4096 % 64)
      (128 + pairCP c d / 64 % 64) (128 + pairCP c d % 64) = pairCP c d := by
    unfold dec4; omega
  have hok : ok4 (pairCP c d) := by unfold ok4; omega
  have h1 : hiSur (pairCP c d) = c := by unfold hiSur pairCP; omega
  have h2 : loSur (pairCP c d) = d := by unfold loSur pairCP; omega
  rw [utf8DecodeLossy.eq_def]
  dsimp only
  rw [if_neg e1]
  simp only [if_neg e2, if_neg e3, if_pos e4, if_pos e5, e7]
  rw [h1, h2, if_pos hok]

theorem utf8DecodeLossy_utf16 (s : List Nat) (bs : List Nat) (h : utf16ToUtf8 s = some bs) :
    utf8DecodeLossy bs = s := by
  induction s using utf16ToUtf8.induct generalizing bs with
  | case1 =>
    simp only [utf16ToUtf8, Option.some.injEq] at h
    subst h
    rfl
  | case2 c hv =>
    rw [utf16ToUtf8, if_pos hv] at h
    simp only [Option.some.injEq] at h
    subst h
    have := utf8DecodeLossy_encBMP c [] hv
    simpa using this
  | case3 c hv =>
    rw [utf16ToUtf8, if_neg hv] at h
    exact absurd h (by simp)
  | case4 c d rest hv ih =>
    rw [utf16ToUtf8, if_pos hv] at h
    rcases Option.map_eq_some'.mp h with ⟨bs', hbs', rfl⟩
    rw [utf8DecodeLossy_encBMP c _ hv, ih bs' hbs']
  | case5 c d rest hv hp ih =>
    rw [utf16ToUtf8, if_neg hv, if_pos hp] at h
    rcases Option.map_eq_some'.mp h with ⟨bs', hbs', rfl⟩
    rw [utf8DecodeLossy_enc4 c d _ ⟨hp.1, hp.2.1⟩ ⟨hp.2.2.1, hp.2.2.2⟩, ih bs' hbs']
  | case6 c d rest hv hp =>
    rw [utf16ToUtf8, if_neg hv, if_neg hp] at h
    exact absurd h (by simp)

theorem utf16ToUtf8Lossy_eq (s : List Nat) (bs : List Nat) (h : utf16ToUtf8 s = some bs) :
    utf16ToUtf8Lossy s = bs := by
  induction s using utf16ToUtf8.induct generalizing bs with
  | case1 =>
    simp only [utf16ToUtf8, Option.some.injEq] at h
    subst h
    rfl
  | case2 c hv =>
    rw [utf16ToUtf8, if_pos hv] at h
    simp only [Option.some.injEq] at h
    subst h
    rw [utf16ToUtf8Lossy, if_pos hv]
  | case3 c hv =>
    rw [utf16ToUtf8, if_neg hv] at h
    exact absurd h (by simp)
  | case4 c d rest hv ih =>
    rw [utf16ToUtf8, if_pos hv] at h
    rcases Option.map_eq_some'.mp h with ⟨bs', hbs', rfl⟩
    rw [utf16ToUtf8Lossy, if_pos hv, ih bs' hbs']
  | case5 c d rest hv hp ih =>
    rw [utf16ToUtf8, if_neg hv, if_pos hp] at h
    rcases Option.map_eq_some'.mp h with ⟨bs', hbs', rfl⟩
    rw [utf16ToUtf8Lossy, if_neg hv, if_pos hp, ih bs' hbs']
  | case6 c d rest hv hp =>
    rw [utf16ToUtf8, if_neg hv, if_neg hp] at h
    exact absurd h (by simp)

theorem utf16ToUtf8_lt (s : List Nat) (bs : List Nat) (h : utf16ToUtf8 s = some bs) :
    ∀ b ∈ bs, b < 256 := by
  induction s using utf16ToUtf8.induct generalizing bs with
  | case1 =>
    simp only [utf16ToUtf8, Option.some.injEq] at h
    subst h
    simp
  | case2 c hv =>
    rw [utf16ToUtf8, if_pos hv] at h
    simp only [Option.some.injEq] at h
    subst h
    exact encBMP_lt c (by omega)
  | case3 c hv =>
    rw [utf16ToUtf8, if_neg hv] at h
    exact absurd h (by simp)
  | case4 c d rest hv ih =>
    rw [utf16ToUtf8, if_pos hv] at h
    rcases Option.map_eq_some'.mp h with ⟨bs', hbs', rfl⟩
    intro b hb
    rcases List.mem_append.mp hb with hb | hb
    · exact encBMP_lt c (by omega) b hb
    · exact ih bs' hbs' b hb
  | case5 c d rest hv hp ih =>
    rw [utf16ToUtf8, if_neg hv, if_pos hp] at h
    rcases Option.map_eq_some'.mp h with ⟨bs', hbs', rfl⟩
    intro b hb
    rcases List.mem_append.mp hb with hb | hb
    · exact enc4_lt c d ⟨hp.1, hp.2.1⟩ ⟨hp.2.2.1, hp.2.2.2⟩ b hb
    · exact ih bs' hbs' b hb
  | case6 c d rest hv hp =>
    rw [utf16ToUtf8, if_neg hv, if_neg hp] at h
    exact absurd h (by simp)

theorem utf16ToUtf8_ne_nil (s : List Nat) (bs : List Nat) (hs : s ≠ [])
    (h : utf16ToUtf8 s = some bs) : bs ≠ [] := by
  match s with
  | [] => exact absurd rfl hs
  | [c] =>
    rw [utf16ToUtf8] at h
    by_cases hv : c < 55296 ∨ (57344 ≤ c ∧ c < 65536)
    · rw [if_pos hv] at h
      simp only [Option.some.injEq] at h
      subst h
      exact encBMP_ne_nil c
    · rw [if_neg hv] at h
      exact absurd h (by simp)
  | c :: d :: rest =>
    rw [utf16ToUtf8] at h
    by_cases hv : c < 55296 ∨ (57344 ≤ c ∧ c < 65536)
    · rw [if_pos hv] at h
      rcases Option.map_eq_some'.mp h with ⟨bs', _, rfl⟩
      intro hnil
      exact encBMP_ne_nil c (List.append_eq_nil.mp hnil).1
    · rw [if_neg hv] at h
      by_cases hp : 55296 ≤ c ∧ c < 56320 ∧ 56320 ≤ d ∧ d < 57344
      · rw [if_pos hp] at h
        rcases Option.map_eq_some'.mp h with ⟨bs', _, rfl⟩
        simp [enc4]
      · rw [if_neg hp] at h
        exact absurd h (by simp)

theorem utf16ToUtf8_ascii (s : List Nat) (h : ∀ c ∈ s, c < 128) :
    utf16ToUtf8 s = some s := by
  induction s with
  | nil => rfl
  | cons c tail ih =>
    have hc : c < 128 := h c (by simp)
    have htail : ∀ x ∈ tail, x < 128 := fun x hx => h x (by simp [hx])
    have hv : c < 55296 ∨ (57344 ≤ c ∧ c < 65536) := by omega
    have hbmp : encBMP c = [c] := by unfold encBMP; rw [if_pos hc]
    match tail with
    | [] =>
      rw [utf16ToUtf8, if_pos hv, hbmp]
    | d :: rest =>
      rw [utf16ToUtf8, if_pos hv, ih htail, hbmp]
      rfl

theorem utf16ToUtf8_cons_bmp (c : Nat) (t : List Nat)
    (hv : c < 55296 ∨ (57344 ≤ c ∧ c < 65536)) :
    utf16ToUtf8 (c :: t) = (utf16ToUtf8 t).map (fun bs => encBMP c ++ bs) := by
  match t with
  | [] =>
    simp only [utf16ToUtf8]
    rw [if_pos hv]
    simp
  | d :: rest =>
    simp only [utf16ToUtf8]
    rw [if_pos hv]

theorem utf16ToUtf8_cons_pair (c d : Nat) (rest : List Nat)
    (hv : ¬ (c < 55296 ∨ (57344 ≤ c ∧ c < 65536)))
    (hp : 55296 ≤ c ∧ c < 56320 ∧ 56320 ≤ d ∧ d < 57344) :
    utf16ToUtf8 (c :: d :: rest) = (utf16ToUtf8 rest).map (fun bs => enc4 c d ++ bs) := by
  simp only [utf16ToUtf8]
  rw [if_neg hv, if_pos hp]

theorem utf16ToUtf8_append (s t : List Nat) (bs : List Nat) (h : utf16ToUtf8 s = some bs) :
    utf16ToUtf8 (s ++ t) = (utf16ToUtf8 t).map (fun cs => bs ++ cs) := by
  induction s using utf16ToUtf8.induct generalizing bs with
  | case1 =>
    simp only [utf16ToUtf8, Option.some.injEq] at h
    subst h
    simp only [List.nil_append]
    cases utf16ToUtf8 t <;> simp
  | case2 c hv =>
    rw [utf16ToUtf8, if_pos hv] at h
    simp only [Option.some.injEq] at h
    subst h
    exact utf16ToUtf8_cons_bmp c t hv
  | case3 c hv =>
    rw [utf16ToUtf8, if_neg hv] at h
    exact absurd h (by simp)
  | case4 c d rest hv ih =>
    rw [utf16ToUtf8, if_pos hv] at h
    rcases Option.map_eq_some'.mp h with ⟨bs', hbs', rfl⟩
    have hs : (c :: d :: rest) ++ t = c :: ((d :: rest) ++ t) := by simp
    rw [hs, utf16ToUtf8_cons_bmp c _ hv, ih bs' hbs']
    cases utf16ToUtf8 t <;> simp
  | case5 c d rest hv hp ih =>
    rw [utf16ToUtf8, if_neg hv, if_pos hp] at h
    rcases Option.map_eq_some'.mp h with ⟨bs', hbs', rfl⟩
    have hs : (c :: d :: rest) ++ t = c :: d :: (rest ++ t) := by simp
    rw [hs, utf16ToUtf8_cons_pair c d _ hv hp, ih bs' hbs']
    cases utf16ToUtf8 t <;> simp
  | case6 c d rest hv hp =>
    rw [utf16ToUtf8, if_neg hv, if_neg hp] at h
    exact absurd h (by simp)

theorem otpXorAux_length (key : List Nat) (i : Nat) (t : List Nat) :
    (otpXorAux key i t).length = t.length := by
  induction t generalizing i with
  | nil => rfl
  | cons c rest ih => simp [otpXorAux, ih]

theorem otpXorAux_involution (key : List Nat) (i : Nat) (t : List Nat) :
    otpXorAux key i (otpXorAux key i t) = t := by
  induction t generalizing i with
  | nil => rfl
  | cons c rest ih =>
    simp only [otpXorAux, List.cons.injEq]
    constructor
    · rw [Nat.xor_assoc, Nat.xor_self, Nat.xor_zero]
    · exact ih (i + 1)

theorem getD_lt (key : List Nat) (n bound : Nat) (h : ∀ c ∈ key, c < bound)
    (hb : 0 < bound) : key.getD n 0 < bound := by
  rcases Nat.lt_or_ge n key.length with hn | hn
  · rw [List.getD_eq_getElem _ _ hn]
    exact h _ (List.getElem_mem hn)
  · rw [List.getD_eq_default _ _ hn]
    exact hb

theorem otpXorAux_ascii (key : List Nat) (i : Nat) (t : List Nat)
    (ht : ∀ c ∈ t, c < 128) (hk : ∀ c ∈ key, c < 128) :
    ∀ c ∈ otpXorAux key i t, c < 128 := by
  induction t generalizing i with
  | nil => simp [otpXorAux]
  | cons c rest ih =>
    intro x hx
    simp only [otpXorAux, List.mem_cons] at hx
    rcases hx with rfl | hx
    · have h1 : c < 128 := ht c (by simp)
      have h2 : key.getD (i % key.length) 0 < 128 := getD_lt key _ 128 hk (by omega)
      calc c ^^^ key.getD (i % key.length) 0 < 2 ^ 7 :=
        Nat.xor_lt_two_pow (by simpa using h1) (by simpa using h2)
      _ = 128 := by norm_num
    · exact ih (i + 1) (fun y hy => ht y (by simp [hy])) x hx

theorem otpXor_length (t key : List Nat) : (otpXor t key).length = t.length :=
  otpXorAux_length key 0 t

theorem otpXor_involution (t key : List Nat) : otpXor (otpXor t key) key = t :=
  otpXorAux_involution key 0 t

theorem otpXor_ascii (t key : List Nat) (ht : ∀ c ∈ t, c < 128)
    (hk : ∀ c ∈ key, c < 128) : ∀ c ∈ otpXor t key, c < 128 :=
  otpXorAux_ascii key 0 t ht hk

theorem take_set (l : List Nat) (j n v : Nat) (h : n ≤ j) :
    (l.set j v).take n = l.take n := by
  induction l generalizing j n with
  | nil => simp
  | cons a rest ih =>
    match j, n with
    | _, 0 => simp
    | 0, n + 1 => omega
    | j + 1, n + 1 =>
      simp only [List.set_cons_succ, List.take_succ_cons]
      rw [ih j n (by omega)]

theorem flipBit_length (i : Nat) (bs : List Nat) : (flipBit i bs).length = bs.length := by
  simp [flipBit]

theorem flipBit_lt (i : Nat) (bs : List Nat) (h : ∀ b ∈ bs, b < 256) :
    ∀ b ∈ flipBit i bs, b < 256 := by
  intro b hb
  rcases List.mem_or_eq_of_mem_set hb with hb | rfl
  · exact h b hb
  · have h1 : bs.getD (i / 8) 0 < 256 := getD_lt bs _ 256 h (by omega)
    have h2 : 2 ^ (i % 8) < 256 := by
      have : i % 8 < 8 := Nat.mod_lt _ (by omega)
      calc 2 ^ (i % 8) ≤ 2 ^ 7 := Nat.pow_le_pow_right (by omega) (by omega)
      _ < 256 := by norm_num
    calc bs.getD (i / 8) 0 ^^^ 2 ^ (i % 8) < 2 ^ 8 :=
      Nat.xor_lt_two_pow (by simpa using h1) (by simpa using h2)
    _ = 256 := by norm_num

theorem flipBit_take (i n : Nat) (bs : List Nat) (h : n * 8 ≤ i) :
    (flipBit i bs).take n = bs.take n := by
  unfold flipBit
  exact take_set bs _ n _ (by omega)

theorem otp_encrypt_eq (A : AEAD) (iv text key : List Nat) (ht : text ≠ []) (hk : key ≠ [])
    (xb : List Nat) (hx : utf16ToUtf8 (otpXor text key) = some xb) :
    browserEncrypt A iv text key .OTP = .ok (b64Encode xb) := by
  simp [browserEncrypt, ht, hk, otpResult, safeBase64Encode, hx]

theorem otp_decrypt_eq (A : AEAD) (ct key : List Nat) (hct : ct ≠ []) (hk : key ≠ [])
    (decoded : List Nat) (hd : safeBase64Decode ct = some decoded) (hdne : decoded ≠ []) :
    browserDecrypt A ct key .OTP = .ok (otpXor decoded key) := by
  simp [browserDecrypt, hct, hk, hd, otpResult, hdne]

theorem otp_roundTrip (A : AEAD) (iv text key : List Nat) (ht : text ≠ []) (hk : key ≠ [])
    (hx : (utf16ToUtf8 (otpXor text key)).isSome) :
    roundTrip A iv text key .OTP = .ok text := by
  obtain ⟨xb, hxb⟩ := Option.isSome_iff_exists.mp hx
  have henc := otp_encrypt_eq A iv text key ht hk xb hxb
  have hxne : otpXor text key ≠ [] := by
    intro h0
    apply ht
    have hl := otpXor_length text key
    rw [h0] at hl
    exact List.length_eq_zero.mp hl.symm
  have hbne : xb ≠ [] := utf16ToUtf8_ne_nil _ _ hxne hxb
  have hlt : ∀ b ∈ xb, b < 256 := utf16ToUtf8_lt _ _ hxb
  have hdec : safeBase64Decode (b64Encode xb) = some (otpXor text key) := by
    unfold safeBase64Decode
    rw [b64_roundtrip xb hlt]
    simpa using utf8Decode_utf16 _ _ hxb
  have hctne : b64Encode xb ≠ [] := b64Encode_ne_nil xb hbne
  unfold roundTrip
  rw [henc]
  show browserDecrypt A (b64Encode xb) key .OTP = .ok text
  rw [otp_decrypt_eq A _ key hctne hk _ hdec hxne, otpXor_involution]

theorem aes_encrypt_eq (A : AEAD) (iv text key : List Nat) (ht : text ≠ []) (hk : key ≠ []) :
    browserEncrypt A iv text key .AES =
      .ok (b64Encode (iv ++ A.enc (importKeyBytes A key) iv (utf16ToUtf8Lossy text))) := by
  simp [browserEncrypt, ht, hk]

theorem aes_decrypt_split (A : AEAD) (bs key : List Nat) (hk : key ≠ [])
    (hlt : ∀ b ∈ bs, b < 256) (hlen : 12 < bs.length) :
    browserDecrypt A (b64Encode bs) key .AES =
      match A.dec (importKeyBytes A key) (bs.take 12) (bs.drop 12) with
      | some pt => .ok (utf8DecodeLossy pt)
      | none => .error .authFailure := by
  have hne : b64Encode bs ≠ [] := b64Encode_ne_nil bs (by
    intro h
    subst h
    simp at hlen)
  have hnle : ¬ bs.length ≤ 12 := by omega
  simp [browserDecrypt, hne, hk, b64_roundtrip bs hlt, hnle]

theorem aes_roundTrip (A : AEAD) (iv text key : List Nat) (hiv : iv.length = 12)
    (hivb : ∀ b ∈ iv, b < 256) (ht : text ≠ []) (hk : key ≠ [])
    (hvalid : (utf16ToUtf8 text).isSome) :
    roundTrip A iv text key .AES = .ok text := by
  obtain ⟨tb, htb⟩ := Option.isSome_iff_exists.mp hvalid
  have hlossy : utf16ToUtf8Lossy text = tb := utf16ToUtf8Lossy_eq _ _ htb
  have htblt : ∀ b ∈ tb, b < 256 := utf16ToUtf8_lt _ _ htb
  have hctlt : ∀ b ∈ iv ++ A.enc (importKeyBytes A key) iv tb, b < 256 := by
    intro b hb
    rcases List.mem_append.mp hb with hb | hb
    · exact hivb b hb
    · exact A.enc_bytes_lt _ _ _ b hb
  have hlen : 12 < (iv ++ A.enc (importKeyBytes A key) iv tb).length := by
    rw [List.length_append, hiv, A.enc_len]
    omega
  unfold roundTrip
  rw [aes_encrypt_eq A iv text key ht hk, hlossy]
  show browserDecrypt A (b64Encode (iv ++ A.enc (importKeyBytes A key) iv tb)) key .AES = .ok text
  rw [aes_decrypt_split A _ key hk hctlt hlen]
  rw [List.take_left' hiv, List.drop_left' hiv]
  rw [A.dec_enc _ _ _ htblt]
  show Except.ok (utf8DecodeLossy tb) = Except.ok text
  rw [utf8DecodeLossy_utf16 _ _ htb]

/-- C1 (counterexample): the round trip fails as stated.  With the valid
non-empty text `"A"` and the valid non-empty key `"𐀀"` (the surrogate
pair U+10000), the OTP XOR output is the lone surrogate `0xD841`, so the
encrypt path's `encodeURIComponent` throws and no ciphertext is
produced. -/
theorem c1_roundtrip_counterexample :
    roundTrip toyAEAD (List.range 12) [65] [55296, 56320] .OTP = .error .encodeFailed := by
  decide

/-- C1 (amended): for non-empty text and key, the encrypt-then-decrypt
round trip returns the original text — on the AES path whenever the text
is a well-formed Unicode string, and on the OTP path whenever the XOR of
the text with the repeated key is a well-formed Unicode string (so
`encodeURIComponent` does not throw); in particular for all ASCII
inputs. -/
theorem c1_roundtrip_amended (A : AEAD) (iv text key : List Nat)
    (hiv : iv.length = 12) (hivb : ∀ b ∈ iv, b < 256)
    (ht : text ≠ []) (hk : key ≠ []) :
    ((utf16ToUtf8 text).isSome → roundTrip A iv text key .AES = .ok text)
    ∧ ((utf16ToUtf8 (otpXor text key)).isSome → roundTrip A iv text key .OTP = .ok text) :=
  ⟨fun hv => aes_roundTrip A iv text key hiv hivb ht hk hv,
   fun hx => otp_roundTrip A iv text key ht hk hx⟩

/-- C1 (witness): the amended round trip at the text `"hi"` and the key
`"k"` under the toy AEAD instance. -/
theorem c1_roundtrip_witness :
    roundTrip toyAEAD (List.range 12) [104, 105] [107] .AES = .ok [104, 105]
    ∧ roundTrip toyAEAD (List.range 12) [104, 105] [107] .OTP = .ok [104, 105] :=
  ⟨(c1_roundtrip_amended toyAEAD (List.range 12) [104, 105] [107] (by decide) (by decide)
      (by decide) (by decide)).1 (by decide),
   (c1_roundtrip_amended toyAEAD (List.range 12) [104, 105] [107] (by decide) (by decide)
      (by decide) (by decide)).2 (by decide)⟩

/-- C2: in the `encryption-service.ts` dispatch, encrypt and decrypt with
RSA, ECC, ChaCha20 or Blowfish fail with the not-implemented error
carrying the algorithm name, for every CryptoJS library instance and all
inputs (so no computation of the library is involved); but in the
browser Web-Crypto path the same algorithms silently return the Base64
of text concatenated with key (`"hi" + "k"` gives `"aGlr"`), and the
matching decrypt recovers the text, contradicting the claim — the spec
itself (§9) records this fallback as a defect. -/
theorem c2_not_implemented :
    (∀ (L : CryptoJSLib) (text key : List Nat),
      svcEncrypt L text key .RSA = some (.error (.notImplemented .RSA)) ∧
      svcEncrypt L text key .ECC = some (.error (.notImplemented .ECC)) ∧
      svcEncrypt L text key .ChaCha20 = some (.error (.notImplemented .ChaCha20)) ∧
      svcEncrypt L text key .Blowfish = some (.error (.notImplemented .Blowfish)) ∧
      svcDecrypt L text key .RSA = some (.error (.notImplemented .RSA)) ∧
      svcDecrypt L text key .ECC = some (.error (.notImplemented .ECC)) ∧
      svcDecrypt L text key .ChaCha20 = some (.error (.notImplemented .ChaCha20)) ∧
      svcDecrypt L text key .Blowfish = some (.error (.notImplemented .Blowfish)))
    ∧ browserEncrypt toyAEAD (List.range 12) [104, 105] [107] .RSA = .ok [97, 71, 108, 114]
    ∧ browserDecrypt toyAEAD [97, 71, 108, 114] [107] .RSA = .ok [104, 105] :=
  ⟨fun _ _ _ => ⟨rfl, rfl, rfl, rfl, rfl, rfl, rfl, rfl⟩, by decide, by decide⟩

/-- C7 (counterexample): the claimed XOR values are wrong; the code does
not return `Base64([31, 28])` for `otpEncrypt("AB", "Z")`. -/
theorem c7_otp_counterexample :
    oneTimePad [65, 66] [90] true ≠ some (.ok (b64Encode [31, 28])) := by
  decide

/-- C7 (amended): `otpEncrypt("AB", "Z")` repeats the key to `"ZZ"`
(the repetition loop turns `[90]` into `[90, 90]` for a length-2 text),
computes `XOR(65, 90) = 27` and `XOR(66, 90) = 24`, and returns
`Base64([27, 24]) = "Gxg="`; decrypting that with key `"Z"` recovers
`"AB"`.  The service-path variant agrees. -/
theorem c7_otp_example :
    repeatLoop [90] 2 2 [90] = some [90, 90]
    ∧ otpXor [65, 66] [90] = [27, 24]
    ∧ oneTimePad [65, 66] [90] true = some (.ok (b64Encode [27, 24]))
    ∧ b64Encode [27, 24] = [71, 120, 103, 61]
    ∧ svcOneTimePad [65, 66] [90] true = some (.ok [71, 120, 103, 61])
    ∧ browserDecrypt toyAEAD [71, 120, 103, 61] [90] .OTP = .ok [65, 66] := by
  decide

/-- C9: the OTP transform's validation is unreachable for an empty key:
the key-repetition loop `while (fullKey.length < text.length) fullKey += key`
runs before the validation and never terminates when the key is empty
and the text is not (appending the empty key never lengthens `fullKey`),
so no fuel suffices in the loop model and `oneTimePad` never raises the
claimed error; with an empty text the loop exits at once and the
validation does raise the empty-text error. -/
theorem c9_otp_empty_inputs :
    (∀ fuel : Nat, oneTimePadFuel fuel [65] [] true = none)
    ∧ oneTimePad [65] [] true = none
    ∧ oneTimePadFuel 0 [] [90] true = some (.error .emptyText)
    ∧ oneTimePad [] [90] true = some (.error .emptyText) := by
  refine ⟨fun fuel => ?_, by decide, by decide, by decide⟩
  have hloop : ∀ f : Nat, repeatLoop ([] : List Nat) 1 f [] = none := by
    intro f
    induction f with
    | zero => rfl
    | succ f ih => simpa [repeatLoop] using ih
  simp [oneTimePadFuel, hloop fuel]

/-- C4: the file-packaging encrypt enforces the fixed 5 MB ceiling
(`CHUNK_SIZE = 5 * 1024 * 1024`): any file of at most `CHUNK_SIZE` bytes
(in particular exactly `CHUNK_SIZE`) with a non-empty ASCII key is
accepted and encrypted (shown on the OTP path), and any larger file is
rejected with the file-too-large error for every algorithm and every
AEAD instance — the rejection is independent of the cipher parameters,
so no encryption work happens on that path. -/
theorem c4_size_ceiling (A : AEAD) (iv : List Nat) (file : FileData) (key : List Nat)
    (algo : EncryptionAlgorithm) (hk : key ≠ []) (hka : ∀ c ∈ key, c < 128) :
    (file.bytes ≠ [] → file.bytes.length ≤ CHUNK_SIZE →
      ∃ env, browserEncryptFile A iv file key .OTP = .ok env)
    ∧ (CHUNK_SIZE < file.bytes.length →
      browserEncryptFile A iv file key algo = .error .fileTooLarge) := by
  constructor
  · intro hb hsize
    have htne : b64Encode file.bytes ≠ [] := b64Encode_ne_nil _ hb
    have hta : ∀ c ∈ b64Encode file.bytes, c < 128 := b64Encode_ascii _
    have hxv : utf16ToUtf8 (otpXor (b64Encode file.bytes) key) =
        some (otpXor (b64Encode file.bytes) key) :=
      utf16ToUtf8_ascii _ (otpXor_ascii _ _ hta hka)
    have henc := otp_encrypt_eq A iv _ key htne hk _ hxv
    refine ⟨⟨file.name, if file.type = [] then octetStream else file.type, .OTP,
      b64Encode (otpXor (b64Encode file.bytes) key)⟩, ?_⟩
    simp [browserEncryptFile, hk, hsize, henc]
  · intro hbig
    have hnle : ¬ file.bytes.length ≤ CHUNK_SIZE := by omega
    simp [browserEncryptFile, hk, hnle]

/-- C4 (witness): a file of exactly 5242880 bytes is accepted and a file
of 5242881 bytes is rejected. -/
theorem c4_size_ceiling_witness :
    (∃ env, browserEncryptFile toyAEAD (List.range 12)
      ⟨List.replicate 5242880 0, [97], [116]⟩ [107] .OTP = .ok env)
    ∧ browserEncryptFile toyAEAD (List.range 12)
      ⟨List.replicate 5242881 0, [97], [116]⟩ [107] .DES = .error .fileTooLarge :=
  ⟨(c4_size_ceiling toyAEAD (List.range 12) ⟨List.replicate 5242880 0, [97], [116]⟩ [107] .DES
      (by decide) (by decide)).1
      (List.ne_nil_of_length_pos (by rw [List.length_replicate]; omega))
      (by show (List.replicate 5242880 0).length ≤ 5 * 1024 * 1024
          rw [List.length_replicate]),
   (c4_size_ceiling toyAEAD (List.range 12) ⟨List.replicate 5242881 0, [97], [116]⟩ [107] .DES
      (by decide) (by decide)).2
      (by show 5 * 1024 * 1024 < (List.replicate 5242881 0).length
          rw [List.length_replicate]
          omega)⟩

/-- C5: the AES decrypt path never turns a rejected authenticated
decryption into a plaintext.  For any AEAD instance, any bit flip at a
position past the 12-byte IV of the combined wire bytes leaves the IV
intact and changes only the ciphertext handed to the platform decrypt;
whenever that decrypt rejects (the authenticated mode's tag-mismatch
guarantee, stated as the hypothesis), `browserDecrypt` raises the
authentication failure instead of returning a result — likewise for
decryption under a different key whose authenticated decrypt rejects. -/
theorem c5_tamper_rejection (A : AEAD) (iv text key key2 : List Nat) (i : Nat)
    (hiv : iv.length = 12) (hivb : ∀ b ∈ iv, b < 256)
    (ht : text ≠ []) (hk : key ≠ []) (hk2 : key2 ≠ []) (hi : 96 ≤ i) :
    (A.dec (importKeyBytes A key) iv
        ((flipBit i (iv ++ A.enc (importKeyBytes A key) iv (utf16ToUtf8Lossy text))).drop 12) =
          none →
      browserDecrypt A
        (b64Encode (flipBit i (iv ++ A.enc (importKeyBytes A key) iv (utf16ToUtf8Lossy text))))
        key .AES = .error .authFailure)
    ∧ (A.dec (importKeyBytes A key2) iv
        (A.enc (importKeyBytes A key) iv (utf16ToUtf8Lossy text)) = none →
      browserDecrypt A
        (b64Encode (iv ++ A.enc (importKeyBytes A key) iv (utf16ToUtf8Lossy text)))
        key2 .AES = .error .authFailure) := by
  have hctlt : ∀ b ∈ iv ++ A.enc (importKeyBytes A key) iv (utf16ToUtf8Lossy text), b < 256 := by
    intro b hb
    rcases List.mem_append.mp hb with hb | hb
    · exact hivb b hb
    · exact A.enc_bytes_lt _ _ _ b hb
  have hlen : 12 < (iv ++ A.enc (importKeyBytes A key) iv (utf16ToUtf8Lossy text)).length := by
    rw [List.length_append, hiv, A.enc_len]
    omega
  constructor
  · intro hrej
    have hflt : ∀ b ∈ flipBit i (iv ++ A.enc (importKeyBytes A key) iv (utf16ToUtf8Lossy text)),
        b < 256 := flipBit_lt i _ hctlt
    have hflen : 12 <
        (flipBit i (iv ++ A.enc (importKeyBytes A key) iv (utf16ToUtf8Lossy text))).length := by
      rw [flipBit_length]
      exact hlen
    rw [aes_decrypt_split A _ key hk hflt hflen]
    have htake : (flipBit i (iv ++ A.enc (importKeyBytes A key) iv (utf16ToUtf8Lossy text))).take 12
        = iv := by
      rw [flipBit_take i 12 _ (by omega), List.take_left' hiv]
    rw [htake, hrej]
  · intro hrej
    rw [aes_decrypt_split A _ key2 hk2 hctlt hlen]
    rw [List.take_left' hiv, List.drop_left' hiv, hrej]

/-- C5 (witness): under the toy AEAD, flipping the first ciphertext bit
(bit 96) of the encryption of `"hi"` under key `"k"` makes decryption
fail with the authentication error, and so does decrypting the untampered
ciphertext with the different key `"x"`. -/
theorem c5_tamper_rejection_witness :
    browserDecrypt toyAEAD
      (b64Encode (flipBit 96 (List.range 12 ++
        toyAEAD.enc (importKeyBytes toyAEAD [107]) (List.range 12) (utf16ToUtf8Lossy [104, 105]))))
      [107] .AES = .error .authFailure
    ∧ browserDecrypt toyAEAD
      (b64Encode (List.range 12 ++
        toyAEAD.enc (importKeyBytes toyAEAD [107]) (List.range 12) (utf16ToUtf8Lossy [104, 105])))
      [120] .AES = .error .authFailure :=
  ⟨(c5_tamper_rejection toyAEAD (List.range 12) [104, 105] [107] [120] 96
      (by decide) (by decide) (by decide) (by decide) (by decide) (by decide)).1 (by decide),
   (c5_tamper_rejection toyAEAD (List.range 12) [104, 105] [107] [120] 96
      (by decide) (by decide) (by decide) (by decide) (by decide) (by decide)).2 (by decide)⟩

/-- C6: the AES wire format is `Base64(IV[12] || AEAD_ciphertext_with_tag)`:
the encrypt result is exactly the Base64 of the 12-byte IV followed by
the AEAD output, the Base64 decodes back to those bytes, their length is
`12 + n + 16` where `n` is the UTF-8 byte length of the plaintext (by
the interface's GCM length law), the first 12 decoded bytes are the IV,
and the decrypt path splits any decoded buffer longer than 12 bytes at
offset 12 into the IV and the ciphertext handed to the platform
decrypt. -/
theorem c6_wire_format (A : AEAD) (iv text key : List Nat)
    (hiv : iv.length = 12) (hivb : ∀ b ∈ iv, b < 256) (ht : text ≠ []) (hk : key ≠ []) :
    (browserEncrypt A iv text key .AES =
        .ok (b64Encode (iv ++ A.enc (importKeyBytes A key) iv (utf16ToUtf8Lossy text))))
    ∧ (b64Decode (b64Encode (iv ++ A.enc (importKeyBytes A key) iv (utf16ToUtf8Lossy text))) =
        some (iv ++ A.enc (importKeyBytes A key) iv (utf16ToUtf8Lossy text)))
    ∧ ((iv ++ A.enc (importKeyBytes A key) iv (utf16ToUtf8Lossy text)).length =
        12 + (utf16ToUtf8Lossy text).length + 16)
    ∧ ((iv ++ A.enc (importKeyBytes A key) iv (utf16ToUtf8Lossy text)).take 12 = iv)
    ∧ (∀ bs : List Nat, (∀ b ∈ bs, b < 256) → 12 < bs.length →
        browserDecrypt A (b64Encode bs) key .AES =
          match A.dec (importKeyBytes A key) (bs.take 12) (bs.drop 12) with
          | some pt => .ok (utf8DecodeLossy pt)
          | none => .error .authFailure) := by
  have hctlt : ∀ b ∈ iv ++ A.enc (importKeyBytes A key) iv (utf16ToUtf8Lossy text), b < 256 := by
    intro b hb
    rcases List.mem_append.mp hb with hb | hb
    · exact hivb b hb
    · exact A.enc_bytes_lt _ _ _ b hb
  refine ⟨aes_encrypt_eq A iv text key ht hk, b64_roundtrip _ hctlt, ?_, ?_, ?_⟩
  · rw [List.length_append, hiv, A.enc_len]
    omega
  · exact List.take_left' hiv
  · intro bs hlt hlen
    exact aes_decrypt_split A bs key hk hlt hlen

/-- C6 (witness): with the toy AEAD, the 11-byte plaintext
`"hello world"` under the key `"correct horse battery staple"` yields a
decoded wire buffer of exactly `12 + 11 + 16 = 39` bytes. -/
theorem c6_wire_format_witness :
    (List.range 12 ++ toyAEAD.enc
      (importKeyBytes toyAEAD
        [99, 111, 114, 114, 101, 99, 116, 32, 104, 111, 114, 115, 101, 32, 98, 97, 116,
         116, 101, 114, 121, 32, 115, 116, 97, 112, 108, 101])
      (List.range 12)
      (utf16ToUtf8Lossy [104, 101, 108, 108, 111, 32, 119, 111, 114, 108, 100])).length = 39 := by
  have h := (c6_wire_format toyAEAD (List.range 12)
    [104, 101, 108, 108, 111, 32, 119, 111, 114, 108, 100]
    [99, 111, 114, 114, 101, 99, 116, 32, 104, 111, 114, 115, 101, 32, 98, 97, 116,
     116, 101, 114, 121, 32, 115, 116, 97, 112, 108, 101]
    (by decide) (by decide) (by decide) (by decide)).2.2.1
  rw [h]
  decide

/-- C10: for every algorithm other than AES and OTP, the Web-Crypto
dispatch returns exactly the Unicode-safe Base64 of the plaintext
concatenated with the key; the plaintext is therefore recoverable from
the ciphertext alone by Base64-decoding (no key needed), and the
matching decrypt Base64-decodes and strips the trailing `key.length`
characters, so the pair round-trips. -/
theorem c10_fallback_base64 (A : AEAD) (iv text key : List Nat) (algo : EncryptionAlgorithm)
    (ht : text ≠ []) (hk : key ≠ [])
    (htv : (utf16ToUtf8 text).isSome) (hkv : (utf16ToUtf8 key).isSome)
    (ha1 : algo ≠ .AES) (ha2 : algo ≠ .OTP) :
    ∃ tb kb, utf16ToUtf8 text = some tb ∧ utf16ToUtf8 key = some kb ∧
      browserEncrypt A iv text key algo = .ok (b64Encode (tb ++ kb)) ∧
      safeBase64Decode (b64Encode (tb ++ kb)) = some (text ++ key) ∧
      browserDecrypt A (b64Encode (tb ++ kb)) key algo = .ok text := by
  obtain ⟨tb, htb⟩ := Option.isSome_iff_exists.mp htv
  obtain ⟨kb, hkb⟩ := Option.isSome_iff_exists.mp hkv
  have hcat : utf16ToUtf8 (text ++ key) = some (tb ++ kb) := by
    rw [utf16ToUtf8_append text key tb htb, hkb]
    rfl
  have hlt : ∀ b ∈ tb ++ kb, b < 256 := by
    intro b hb
    rcases List.mem_append.mp hb with hb | hb
    · exact utf16ToUtf8_lt _ _ htb b hb
    · exact utf16ToUtf8_lt _ _ hkb b hb
  have hdecode : safeBase64Decode (b64Encode (tb ++ kb)) = some (text ++ key) := by
    unfold safeBase64Decode
    rw [b64_roundtrip _ hlt]
    simpa using utf8Decode_utf16 _ _ hcat
  have htbne : tb ≠ [] := utf16ToUtf8_ne_nil _ _ ht htb
  have hne : b64Encode (tb ++ kb) ≠ [] := b64Encode_ne_nil _ (by
    intro h0
    exact htbne (List.append_eq_nil.mp h0).1)
  have htk : (text ++ key).take ((text ++ key).length - key.length) = text := by
    rw [List.length_append]
    have he : text.length + key.length - key.length = text.length := by omega
    rw [he, List.take_left]
  refine ⟨tb, kb, htb, hkb, ?_, hdecode, ?_⟩
  · cases algo <;> first
      | exact absurd rfl ha1
      | exact absurd rfl ha2
      | simp [browserEncrypt, ht, hk, safeBase64Encode, hcat]
  · cases algo <;> first
      | exact absurd rfl ha1
      | exact absurd rfl ha2
      | simp [browserDecrypt, hne, hk, hdecode, htk]

/-- C10 (witness): the fallback format at text `"hi"`, key `"k"`,
algorithm DES. -/
theorem c10_fallback_base64_witness :
    ∃ tb kb, utf16ToUtf8 [104, 105] = some tb ∧ utf16ToUtf8 [107] = some kb ∧
      browserEncrypt toyAEAD (List.range 12) [104, 105] [107] .DES =
        .ok (b64Encode (tb ++ kb)) ∧
      safeBase64Decode (b64Encode (tb ++ kb)) = some ([104, 105] ++ [107]) ∧
      browserDecrypt toyAEAD (b64Encode (tb ++ kb)) [107] .DES = .ok [104, 105] :=
  c10_fallback_base64 toyAEAD (List.range 12) [104, 105] [107] .DES
    (by decide) (by decide) (by decide) (by decide) (by decide) (by decide)

/-- C3 (counterexample): the envelope does not preserve an empty MIME
type — packaging a 1-byte file whose `type` is the empty string and
unpackaging it yields `application/octet-stream`, not the original
(empty) type, so name/type recovery is not exact as stated. -/
theorem c3_file_type_counterexample :
    (fileRoundTrip toyAEAD (List.range 12) ⟨[1], [97], []⟩ [107] .OTP).map
      (fun r => r.originalFileType) = .ok octetStream
    ∧ octetStream ≠ [] := ⟨by decide, by decide⟩

/-- C3 (amended): for non-empty content, name, type, and a non-empty
ASCII key, packaging-encrypting with AES or OTP and packaging-decrypting
with the same key succeeds, the returned Base64 payload decodes to the
byte-identical original content, and the original name and MIME type are
recovered exactly.  (An empty MIME type is replaced by
`application/octet-stream`; an empty content or name makes a step of the
pipeline fail instead of round-tripping.) -/
theorem c3_file_roundtrip_amended (A : AEAD) (iv : List Nat) (file : FileData)
    (key : List Nat) (algo : EncryptionAlgorithm)
    (hiv : iv.length = 12) (hivb : ∀ b ∈ iv, b < 256)
    (hb : file.bytes ≠ []) (hbb : ∀ b ∈ file.bytes, b < 256)
    (hsize : file.bytes.length ≤ CHUNK_SIZE)
    (hn : file.name ≠ []) (htp : file.type ≠ [])
    (hk : key ≠ []) (hka : ∀ c ∈ key, c < 128)
    (halgo : algo = .AES ∨ algo = .OTP) :
    fileRoundTrip A iv file key algo =
      .ok ⟨b64Encode file.bytes, file.name, file.type⟩
    ∧ b64Decode (b64Encode file.bytes) = some file.bytes := by
  have hta : ∀ c ∈ b64Encode file.bytes, c < 128 := b64Encode_ascii _
  have htne : b64Encode file.bytes ≠ [] := b64Encode_ne_nil _ hb
  have hmain : ∃ ct, ct ≠ [] ∧ browserEncrypt A iv (b64Encode file.bytes) key algo = .ok ct ∧
      browserDecrypt A ct key algo = .ok (b64Encode file.bytes) := by
    have hvalid : (utf16ToUtf8 (b64Encode file.bytes)).isSome := by
      rw [utf16ToUtf8_ascii _ hta]
      rfl
    rcases halgo with rfl | rfl
    · have henc := aes_encrypt_eq A iv (b64Encode file.bytes) key htne hk
      have hrt := aes_roundTrip A iv (b64Encode file.bytes) key hiv hivb htne hk hvalid
      unfold roundTrip at hrt
      rw [henc] at hrt
      simp only [Except.bind] at hrt
      refine ⟨_, ?_, henc, hrt⟩
      apply b64Encode_ne_nil
      intro h0
      have hl := congrArg List.length h0
      rw [List.length_append, hiv, A.enc_len] at hl
      simp at hl
    · have hxv : utf16ToUtf8 (otpXor (b64Encode file.bytes) key) =
          some (otpXor (b64Encode file.bytes) key) :=
        utf16ToUtf8_ascii _ (otpXor_ascii _ _ hta hka)
      have henc := otp_encrypt_eq A iv _ key htne hk _ hxv
      have hrt := otp_roundTrip A iv (b64Encode file.bytes) key htne hk (by rw [hxv]; rfl)
      unfold roundTrip at hrt
      rw [henc] at hrt
      simp only [Except.bind] at hrt
      refine ⟨_, ?_, henc, hrt⟩
      apply b64Encode_ne_nil
      intro h0
      apply htne
      have hl := congrArg List.length h0
      rw [otpXor_length] at hl
      exact List.length_eq_zero.mp (by simpa using hl)
  obtain ⟨ct, hctne, henc, hdec⟩ := hmain
  have hfenc : browserEncryptFile A iv file key algo = .ok ⟨file.name, file.type, algo, ct⟩ := by
    simp [browserEncryptFile, hk, hsize, henc, htp]
  have hfdec : browserDecryptFile A ⟨file.name, file.type, algo, ct⟩ key =
      .ok ⟨b64Encode file.bytes, file.name, file.type⟩ := by
    simp [browserDecryptFile, hk, hctne, hn, hdec, htne, htp]
  constructor
  · unfold fileRoundTrip
    rw [hfenc]
    simpa [Except.bind] using hfdec
  · exact b64_roundtrip _ hbb

/-- C3 (witness): the amended file round trip at a 3-byte file named
`"a"` with MIME type `"t"`, key `"k"`, OTP. -/
theorem c3_file_roundtrip_witness :
    fileRoundTrip toyAEAD (List.range 12) ⟨[1, 2, 3], [97], [116]⟩ [107] .OTP =
      .ok ⟨b64Encode [1, 2, 3], [97], [116]⟩
    ∧ b64Decode (b64Encode [1, 2, 3]) = some [1, 2, 3] :=
  c3_file_roundtrip_amended toyAEAD (List.range 12) ⟨[1, 2, 3], [97], [116]⟩ [107] .OTP
    (by decide) (by decide) (by decide) (by decide) (by decide) (by decide) (by decide)
    (by decide) (by decide) (Or.inr rfl)

/-- C8: `measureKeyStrength` is the pure function
`round(40 * min(len/16, 1) + 60 * min(uniqueChars/64, 1))` (the
definition from the code equals the spec's formula), its score is 0
exactly for the empty passphrase, and it reaches the cap 100 exactly
when the length is at least 16 and the number of distinct code units is
at least 64. -/
theorem c8_key_strength :
    (∀ k : List Nat, measureKeyStrength k = specKeyStrength k)
    ∧ (∀ k : List Nat, measureKeyStrength k = 0 ↔ k = [])
    ∧ (∀ k : List Nat, measureKeyStrength k = 100 ↔
        (16 ≤ k.length ∧ 64 ≤ k.dedup.length)) := by
  refine ⟨fun k => ?_, fun k => ?_, fun k => ?_⟩
  · unfold measureKeyStrength specKeyStrength
    congr 1
    ring
  · constructor
    · intro h
      by_contra hk
      have hlen : 1 ≤ k.length := by
        rcases k with _ | _
        · exact absurd rfl hk
        · simp
      have hlenq : (1 : ℚ) ≤ (k.length : ℚ) := by exact_mod_cast hlen
      have hm1 : (1 : ℚ) / 16 ≤ min ((k.length : ℚ) / 16) 1 := by
        apply le_min
        · linarith
        · norm_num
      have hm2 : (0 : ℚ) ≤ min ((k.dedup.length : ℚ) / 64) 1 := by
        apply le_min
        · positivity
        · norm_num
      have hge : (3 : ℤ) ≤ measureKeyStrength k := by
        unfold measureKeyStrength
        rw [Int.le_floor]
        push_cast
        nlinarith [hm1, hm2]
      omega
    · rintro rfl
      unfold measureKeyStrength
      norm_num
  · constructor
    · intro h
      constructor
      · by_contra hlen
        push_neg at hlen
        have hlenq : (k.length : ℚ) ≤ 15 := by exact_mod_cast Nat.le_of_lt_succ hlen
        have hm1 : min ((k.length : ℚ) / 16) 1 ≤ 15 / 16 :=
          le_trans (min_le_left _ _) (by linarith)
        have hm2 : min ((k.dedup.length : ℚ) / 64) 1 ≤ 1 := min_le_right _ _
        have hlt : measureKeyStrength k < 100 := by
          unfold measureKeyStrength
          rw [Int.floor_lt]
          push_cast
          nlinarith [hm1, hm2]
        omega
      · by_contra hu
        push_neg at hu
        have huq : (k.dedup.length : ℚ) ≤ 63 := by exact_mod_cast Nat.le_of_lt_succ hu
        have hm1 : min ((k.length : ℚ) / 16) 1 ≤ 1 := min_le_right _ _
        have hm2 : min ((k.dedup.length : ℚ) / 64) 1 ≤ 63 / 64 :=
          le_trans (min_le_left _ _) (by linarith)
        have hlt : measureKeyStrength k < 100 := by
          unfold measureKeyStrength
          rw [Int.floor_lt]
          push_cast
          nlinarith [hm1, hm2]
        omega
    · rintro ⟨h1, h2⟩
      have h1q : (16 : ℚ) ≤ (k.length : ℚ) := by exact_mod_cast h1
      have h2q : (64 : ℚ) ≤ (k.dedup.length : ℚ) := by exact_mod_cast h2
      have hm1 : min ((k.length : ℚ) / 16) 1 = 1 := min_eq_right (by linarith)
      have hm2 : min ((k.dedup.length : ℚ) / 64) 1 = 1 := min_eq_right (by linarith)
      unfold measureKeyStrength
      rw [hm1, hm2]
      norm_num

/-- C8 (witness): the empty passphrase scores 0. -/
theorem c8_key_strength_witness : measureKeyStrength [] = 0 :=
  (c8_key_strength.2.1 []).mpr rfl
